import Mathlib

/-!
Verification development for the PhysIKA repository.

Covered code:
* `Physika_Src/Physika_Dynamics/MPM/CPDI_Update_Methods/CPDI2_update_method.h`
  declares the CPDI2 particle-domain update method (2D and 3D template
  specializations); the implementation file is not part of the sources, so
  the routines are modelled from the specification, generically in the
  dimension `d` (the 2D and 3D specializations are the instances `d = 2`
  and `d = 3`).  Scalars are taken in an arbitrary field `K`, standing for
  the exact arithmetic underlying the floating-point `Scalar` template
  parameter.  The Gauss abscissa (`±1/√3` in the specification) is an
  arbitrary field element `g`; no statement below depends on its value.
* `Physika_Src/Physika_IO/Surface_Mesh_IO/obj_mesh_io.cpp`: the grouping
  state machine of `ObjMeshIO::load` is embedded as a fold over an abstract
  stream of lines.
* `FastMultiphaseSPH.cpp` (unnamed source part): `advance`.
-/

namespace Physika

variable {K : Type} [Field K] {d : ℕ}

/-- Modelled from the spec (CPDI2 implementation absent from the sources):
the natural coordinate of a domain corner along one axis.  A corner is
indexed by one bit per axis (`2.` data model: "indexed by a
multi-dimensional index ... consistent with a fixed corner-numbering
convention"); bit `true` is the `+1` end of the axis, bit `false` the `-1`
end. -/
def cornerSign (b : Bool) : K :=
  if b then 1 else -1

/-- Modelled from the spec (CPDI2 implementation absent from the sources):
the bilinear (2D) / trilinear (3D) element shape function of domain corner
`c`, evaluated at the natural-coordinate point `ξ ∈ [-1,1]^d`
(spec 4.4: "using bilinear (2D) or trilinear (3D) interpolation of the 4/8
corner positions"). -/
def shapeValue (c : Fin d → Bool) (ξ : Fin d → K) : K :=
  ∏ i, (1 + cornerSign (c i) * ξ i) / 2

/-- Modelled from the spec (CPDI2 implementation absent from the sources):
the gradient of `shapeValue c` with respect to the natural coordinate,
component `i`; the `i`-th factor of the product is replaced by its
derivative. -/
def shapeGradient (c : Fin d → Bool) (ξ : Fin d → K) (i : Fin d) : K :=
  ∏ j, if j = i then cornerSign (c j) / 2 else (1 + cornerSign (c j) * ξ j) / 2

/-- Modelled from the spec (CPDI2 implementation absent from the sources):
`particleDomainJacobian` — the derivative of physical position with
respect to natural coordinate at the natural point `ξ`, for the domain
with corner positions `pd` (spec 4.4).  Per the header's convention the
derivative with respect to a vector is a row vector: row index `i` is the
natural-coordinate axis, column index `j` the physical axis. -/
def particleDomainJacobian (ξ : Fin d → K) (pd : (Fin d → Bool) → Fin d → K) :
    Matrix (Fin d) (Fin d) K :=
  Matrix.of fun i j => ∑ c : Fin d → Bool, pd c j * shapeGradient c ξ i

/-- Modelled from the spec (CPDI2 implementation absent from the sources):
the Gauss quadrature point indexed by `p` (one bit per axis): coordinate
`±g` on each axis, where `g` stands for the abscissa `1/√3` of the fixed
2-point-per-axis Gauss-Legendre rule (spec 4.4). -/
def gaussPoint (g : K) (p : Fin d → Bool) : Fin d → K :=
  fun i => cornerSign (p i) * g

/-- Modelled from the spec (CPDI2 implementation absent from the sources):
explicit inverse of a square matrix over a field,
`A⁻¹ = det A⁻¹ • adjugate A`; the spec (4.4) assumes the Jacobian is
invertible (a non-invertible Jacobian is a fatal geometry error). -/
def matInv (A : Matrix (Fin d) (Fin d) K) : Matrix (Fin d) (Fin d) K :=
  (A.det)⁻¹ • A.adjugate

/-- Modelled from the spec (CPDI2 implementation absent from the sources):
`gaussIntegrateShapeFunctionValueInParticleDomain` — the integral of the
shape function of corner `c` over the particle domain `pd`, approximated
with the fixed 2-point-per-axis Gauss rule, each evaluation weighted by
the Jacobian determinant (quadrature weight 1 per axis). -/
def gaussIntegrateShapeFunctionValueInParticleDomain (g : K) (c : Fin d → Bool)
    (pd : (Fin d → Bool) → Fin d → K) : K :=
  ∑ p : Fin d → Bool,
    shapeValue c (gaussPoint g p) * (particleDomainJacobian (gaussPoint g p) pd).det

/-- Modelled from the spec (CPDI2 implementation absent from the sources):
the volume (3D) / area (2D) of a particle domain, computed by the same
Gauss rule applied to the Jacobian determinant (the rule integrates the
determinant of a multilinear map exactly). -/
def particleDomainVolume (g : K) (pd : (Fin d → Bool) → Fin d → K) : K :=
  ∑ p : Fin d → Bool, (particleDomainJacobian (gaussPoint g p) pd).det

/-- Modelled from the spec (CPDI2 implementation absent from the sources):
`gaussIntegrateShapeFunctionGradientToReferenceCoordinateInParticleDomain`
— the integral, over the initial (reference) domain `pd0`, of the gradient
of corner `c`'s shape function with respect to the reference
configuration; each quadrature evaluation maps the natural gradient
through the inverse of the reference-domain Jacobian and is weighted by
its determinant (spec 4.4/4.5).  The C++ signature also receives the
current-configuration domain `pd`; the spec's formula ("applied to the
*initial* (reference) domain") uses only `pd0`. -/
def gaussIntegrateShapeFunctionGradientToReferenceCoordinateInParticleDomain
    (g : K) (c : Fin d → Bool) (pd pd0 : (Fin d → Bool) → Fin d → K) : Fin d → K :=
  ∑ p : Fin d → Bool,
    (particleDomainJacobian (gaussPoint g p) pd0).det •
      (matInv (particleDomainJacobian (gaussPoint g p) pd0)).mulVec
        (shapeGradient c (gaussPoint g p))

/-- An axis-aligned, undistorted cube (square) particle domain with the
given center and half edge length: corner `c` sits at
`center + h * cornerSign (c i)` on axis `i`. -/
def cubeDomain (center : Fin d → K) (h : K) : (Fin d → Bool) → Fin d → K :=
  fun c i => center i + h * cornerSign (c i)

/-- An axis-aligned box particle domain with low corner `lo` and high
corner `hi`. -/
def boxDomain (lo hi : Fin d → K) : (Fin d → Bool) → Fin d → K :=
  fun c i => if c i then hi i else lo i

/-- Modelled from the spec (CPDI2 implementation absent from the sources):
the arithmetic mean of the `2^d` domain-corner positions (4 corners in 2D,
8 in 3D), the particle's "center-equivalent position" (spec 4.1, 4.5). -/
def cornerAverage (pd : (Fin d → Bool) → Fin d → K) : Fin d → K :=
  fun i => (∑ c : Fin d → Bool, pd c i) / (2 ^ d : K)

/-- Modelled from the spec (data model, §3): the per-particle state owned
by the surrounding MPM driver: the particle position, the
current-configuration domain-corner positions, the reference
(initial-configuration) corner positions, and the deformation gradient. -/
structure MPMParticle (d : ℕ) (K : Type) where
  position : Fin d → K
  currentCorners : (Fin d → Bool) → Fin d → K
  referenceCorners : (Fin d → Bool) → Fin d → K
  deformationGradient : Matrix (Fin d) (Fin d) K

/-- Look up the particle of object `o` at particle index `p`. -/
def getParticle (objs : List (List (MPMParticle d K))) (o p : ℕ) :
    Option (MPMParticle d K) :=
  (objs.get? o).bind fun obj => obj.get? p

/-- `List.map` with the position of each element, starting from `n`. -/
def mapIdxFrom (f : ℕ → α → β) : ℕ → List α → List β
  | _, [] => []
  | n, a :: as => f n a :: mapIdxFrom f (n + 1) as

/-- Apply a per-particle update (given object and particle indices) to
every particle of every object, preserving the list structure; this is the
data-parallel loop shape shared by the CPDI2 update routines (spec §5). -/
def updateEachParticle (f : ℕ → ℕ → MPMParticle d K → MPMParticle d K)
    (objs : List (List (MPMParticle d K))) : List (List (MPMParticle d K)) :=
  mapIdxFrom (fun o obj => mapIdxFrom (fun p part => f o p part) 0 obj) 0 objs

/-- The per-particle body of `updateParticlePosition`: a particle whose
Dirichlet flag is `false` gets the corner average as its position; any
other particle (flag set, or flag entry missing) is untouched. -/
def positionRule (flag : Option Bool) (part : MPMParticle d K) : MPMParticle d K :=
  match flag with
  | some false => { part with position := cornerAverage part.currentCorners }
  | _ => part

/-- Modelled from the spec (CPDI2 implementation absent from the sources):
`updateParticlePosition` — for every particle whose Dirichlet flag is not
set, the position becomes the arithmetic mean of its current-configuration
domain corners; Dirichlet particles are left untouched (spec 4.5).  The
timestep `dt` of the C++ signature does not enter the formula.  A particle
with no corresponding flag entry is left unchanged (the spec rejects
mismatched array dimensions before any mutation, §7). -/
def updateParticlePosition (dt : K) (is_dirichlet_particle : List (List Bool))
    (objs : List (List (MPMParticle d K))) : List (List (MPMParticle d K)) :=
  updateEachParticle (fun o p part =>
    positionRule ((is_dirichlet_particle.get? o).bind fun l => l.get? p) part) objs

/-- Modelled from the spec (CPDI2 implementation absent from the sources):
one background-grid support-node entry of a particle or corner: the grid
node's multi-index, the interpolation weight, and the weight gradient
(`MPMInternal::NodeIndexWeightGradientPair`). -/
structure NodeEntry (d : ℕ) (K : Type) where
  node : Fin d → ℕ
  weight : K
  gradient : Fin d → K

/-- Modelled from the spec (CPDI2 implementation absent from the sources):
the grid velocity interpolated at a corner: the sum of
`weight * grid_velocity(node)` over the valid prefix (`num` entries) of
the corner's support-node list (spec 4.3). -/
def interpolatedCornerVelocity (gridVel : (Fin d → ℕ) → Fin d → K)
    (entries : List (NodeEntry d K)) (num : ℕ) (i : Fin d) : K :=
  ((entries.take num).map fun e => e.weight * gridVel e.node i).sum

/-- The per-corner support data of one particle: for each corner, the
entry list and the valid-prefix count.  This bundles the two parallel
arrays `corner_grid_weight_and_gradient` and `corner_grid_pair_num` of the
C++ signature. -/
def CornerWeightData (d : ℕ) (K : Type) : Type :=
  (Fin d → Bool) → List (NodeEntry d K) × ℕ

/-- Modelled from the spec (CPDI2 implementation absent from the sources):
the forward-Euler advection at the heart of `updateParticleDomain`
(spec 4.3): every corner position is replaced by
`corner_position + dt * Σ (weight_i * grid_velocity_i)` over the corner's
valid support-node entries; no sub-stepping or implicit correction. -/
def advectedCorners (gridVel : (Fin d → ℕ) → Fin d → K) (dt : K)
    (cd : CornerWeightData d K) (cur : (Fin d → Bool) → Fin d → K) :
    (Fin d → Bool) → Fin d → K :=
  fun c i => cur c i + dt * interpolatedCornerVelocity gridVel (cd c).1 (cd c).2 i

/-- The per-particle body of `updateParticleDomain`: replace the current
corners by their forward-Euler advection; a particle with no corner data
is untouched. -/
def domainRule (gridVel : (Fin d → ℕ) → Fin d → K) (dt : K)
    (data : Option (CornerWeightData d K)) (part : MPMParticle d K) : MPMParticle d K :=
  match data with
  | some cd => { part with currentCorners := advectedCorners gridVel dt cd part.currentCorners }
  | none => part

/-- Modelled from the spec (CPDI2 implementation absent from the sources):
`updateParticleDomain` applied over all objects and particles. -/
def updateParticleDomain (gridVel : (Fin d → ℕ) → Fin d → K)
    (cornerData : List (List (CornerWeightData d K))) (dt : K)
    (objs : List (List (MPMParticle d K))) : List (List (MPMParticle d K)) :=
  updateEachParticle (fun o p part =>
    domainRule gridVel dt ((cornerData.get? o).bind fun l => l.get? p) part) objs

/-- Modelled from the spec (CPDI2 implementation absent from the sources):
`updateParticleDeformationGradient` — modified CPDI2: the deformation
gradient is reconstructed as the sum over domain corners of the outer
product of the current corner position with the corner's reference shape
gradient (the Gauss integral over the initial domain, averaged by the
initial domain's volume), spec 4.5. -/
def deformationGradientRule (g : K) (part : MPMParticle d K) : MPMParticle d K :=
  { part with deformationGradient := ((particleDomainVolume g part.referenceCorners)⁻¹ •
      ∑ c : Fin d → Bool,
        Matrix.vecMulVec (part.currentCorners c)
          (gaussIntegrateShapeFunctionGradientToReferenceCoordinateInParticleDomain
            g c part.currentCorners part.referenceCorners)) }

/-- Modelled from the spec (CPDI2 implementation absent from the sources):
`updateParticleDeformationGradient` applied over all objects and
particles. -/
def updateParticleDeformationGradient (g : K)
    (objs : List (List (MPMParticle d K))) : List (List (MPMParticle d K)) :=
  updateEachParticle (fun _ _ part => deformationGradientRule g part) objs

/-- Modelled from the spec (error taxonomy §7): a capacity violation —
the number of grid nodes overlapping a point exceeded the pre-allocated
storage — identified by the offending object index, particle index, and
(for a corner-level violation) the offending corner. -/
structure CapacityError (d : ℕ) where
  object : ℕ
  particle : ℕ
  corner : Option (Fin d → Bool)

/-- The weight buffers produced for one particle: the particle-level
support-node entries with their valid count, and per corner the entries
with their valid count (spec 4.1: the count is tracked explicitly and
only a prefix of the pre-sized storage is valid). -/
def WeightOutput (d : ℕ) (K : Type) : Type :=
  (List (NodeEntry d K) × ℕ) × ((Fin d → Bool) → List (NodeEntry d K) × ℕ)

/-- The list of all domain corners of a `d`-dimensional particle domain,
built by extending each corner of the `(d-1)`-dimensional domain with
either bit on the new axis. -/
def cornersList : (d : ℕ) → List (Fin d → Bool)
  | 0 => [fun i => i.elim0]
  | n + 1 => (cornersList n).flatMap fun c => [Fin.cons false c, Fin.cons true c]

/-- Whether the support-node list of the point named by the optional
corner index (none = the particle itself, evaluated at its corner
average) exceeds the capacity. -/
def offendsCapacity (support : (Fin d → K) → List (NodeEntry d K)) (cap : ℕ)
    (part : MPMParticle d K) : Option (Fin d → Bool) → Prop
  | none => cap < (support (cornerAverage part.currentCorners)).length
  | some c => cap < (support (part.currentCorners c)).length

/-- Modelled from the spec (CPDI2 implementation absent from the sources):
the weight computation for one particle.  `support` abstracts the external
weight function together with the background grid: it enumerates, for a
query position, the grid nodes whose support overlaps it with their
weights and weight gradients.  Particle-level weights are evaluated at the
domain-corner average, corner-level weights at each corner position
(spec 4.1).  If any of the lists exceeds the pre-allocated capacity `cap`
the routine fails fast with the offending index (spec §7). -/
def computeParticleWeights (support : (Fin d → K) → List (NodeEntry d K))
    (cap : ℕ) (o p : ℕ) (part : MPMParticle d K) :
    Except (CapacityError d) (WeightOutput d K) :=
  let pe := support (cornerAverage part.currentCorners)
  if cap < pe.length then .error ⟨o, p, none⟩
  else
    match (cornersList d).find?
        (fun c => decide (cap < (support (part.currentCorners c)).length)) with
    | some c => .error ⟨o, p, some c⟩
    | none =>
      .ok ((pe, pe.length),
        fun c => ((support (part.currentCorners c)),
          (support (part.currentCorners c)).length))

/-- One object's worth of weight computation, particles indexed from `p`. -/
def computeWeightsRow (support : (Fin d → K) → List (NodeEntry d K)) (cap o : ℕ) :
    ℕ → List (MPMParticle d K) → Except (CapacityError d) (List (WeightOutput d K))
  | _, [] => .ok []
  | p, part :: rest => do
    let w ← computeParticleWeights support cap o p part
    let ws ← computeWeightsRow support cap o (p + 1) rest
    return w :: ws

/-- All objects' worth of weight computation, objects indexed from `o`. -/
def computeWeightsAll (support : (Fin d → K) → List (NodeEntry d K)) (cap : ℕ) :
    ℕ → List (List (MPMParticle d K)) →
      Except (CapacityError d) (List (List (WeightOutput d K)))
  | _, [] => .ok []
  | o, obj :: rest => do
    let r ← computeWeightsRow support cap o 0 obj
    let rs ← computeWeightsAll support cap (o + 1) rest
    return r :: rs

/-- Modelled from the spec (CPDI2 implementation absent from the sources):
`updateParticleInterpolationWeight` — for every particle of every object,
and independently for every domain corner, compute the support-node
weight/gradient entries, failing fast on a capacity violation (spec 4.1,
§7).  The enrichment variant behaves identically for the capacity check. -/
def updateParticleInterpolationWeight (support : (Fin d → K) → List (NodeEntry d K))
    (cap : ℕ) (objs : List (List (MPMParticle d K))) :
    Except (CapacityError d) (List (List (WeightOutput d K))) :=
  computeWeightsAll support cap 0 objs

/-- The weight-output lookup mirroring `getParticle`. -/
def getWeightOutput (out : List (List (WeightOutput d K))) (o p : ℕ) :
    Option (WeightOutput d K) :=
  (out.get? o).bind fun row => row.get? p

/-- The full, untruncated weight buffers of one particle: the complete
support-node list with its true length, at the particle's corner average
and at every corner. -/
def expectedWeightOutput (support : (Fin d → K) → List (NodeEntry d K))
    (part : MPMParticle d K) : WeightOutput d K :=
  ((support (cornerAverage part.currentCorners),
      (support (cornerAverage part.currentCorners)).length),
    fun c => (support (part.currentCorners c), (support (part.currentCorners c)).length))

end Physika

namespace ObjMeshIO

/-- One line of an OBJ file, as far as the grouping logic of
`ObjMeshIO::load` is concerned: a group line (prefix `g `) with its group
name, a face line (prefix `f ` or `fo `) carrying the parsed face
(abstracted to a numeric identifier), a `usemtl` line (its material name
is irrelevant to grouping and omitted), or any other line. -/
inductive ObjLine where
  | group (name : String)
  | face (f : ℕ)
  | usemtl
  | other
  deriving DecidableEq

/-- Whether a line is a group line. -/
def isGroupLine : ObjLine → Bool
  | .group _ => true
  | _ => false

/-- Whether a line is a `usemtl` line. -/
def isUsemtlLine : ObjLine → Bool
  | .usemtl => true
  | _ => false

/-- The faces carried by a line list, in order. -/
def facesOf (lines : List ObjLine) : List ℕ :=
  lines.filterMap fun
    | .face f => some f
    | _ => none

/-- The groups of the surface mesh: name and faces, in insertion order
(`SurfaceMesh` stores groups in a vector; `groupPtr` returns the first
group with a given name). -/
abbrev Groups : Type := List (String × List ℕ)

/-- `SurfaceMesh::groupPtr` by name: the face list of the first group
with the given name. -/
def groupLookup (name : String) : Groups → Option (List ℕ)
  | [] => none
  | g :: gs => if g.1 = name then some g.2 else groupLookup name gs

/-- `Group::addFace` through a `groupPtr(name)` pointer: append the face
to the first group with the given name. -/
def addFaceToGroup (name : String) (f : ℕ) : Groups → Groups
  | [] => []
  | g :: gs =>
    if g.1 = name then (g.1, g.2 ++ [f]) :: gs else g :: addFaceToGroup name f gs

/-- Total number of faces stored in the mesh's groups. -/
def totalFaces (gs : Groups) : ℕ :=
  (gs.map fun g => g.2.length).sum

/-- The loop state of `ObjMeshIO::load` relevant to face grouping: the
mesh's groups, the current group (`current_group`, a pointer modelled by
the name it was looked up with; `none` models `NULL`), and the locals
`group_source_name`, `group_clone_index` and `num_group_faces`. -/
structure LoadState where
  groups : Groups
  current : Option String
  sourceName : String
  cloneIdx : ℕ
  numGroupFaces : ℕ
  deriving DecidableEq

/-- The initial loop state of `ObjMeshIO::load` (lines 40-46 of
`obj_mesh_io.cpp`). -/
def initLoadState : LoadState :=
  ⟨[], none, "", 0, 0⟩

/-- One iteration of the `ObjMeshIO::load` line loop, restricted to the
grouping logic (`obj_mesh_io.cpp` lines 86-110 and 171-188):
* a `g ` line looks the name up, reuses the existing group if present and
  otherwise adds a fresh one, resetting the clone bookkeeping;
* an `f `/`fo ` line first creates and selects a group named `default`
  when no current group exists (lines 104-110), then adds the parsed face
  to the current group;
* a `usemtl` line with `num_group_faces > 0` starts a clone group named
  `<source>.<index>` and selects it (the material-index bookkeeping does
  not affect grouping and is not modelled);
* every other line leaves the grouping state unchanged. -/
def loadStep (s : LoadState) : ObjLine → LoadState
  | .group name =>
    if (groupLookup name s.groups).isSome then { s with current := some name }
    else
      { s with groups := s.groups ++ [(name, [])], current := some name,
               sourceName := name, cloneIdx := 0, numGroupFaces := 0 }
  | .face f =>
    match s.current with
    | none =>
      { s with groups := addFaceToGroup ("default") f (s.groups ++ [("default", [])]),
               current := some ("default"), numGroupFaces := s.numGroupFaces + 1 }
    | some name =>
      { s with groups := addFaceToGroup name f s.groups,
               numGroupFaces := s.numGroupFaces + 1 }
  | .usemtl =>
    if 0 < s.numGroupFaces then
      let name := s.sourceName ++ "." ++ toString s.cloneIdx
      { s with groups := s.groups ++ [(name, [])], current := some name,
               numGroupFaces := 0, cloneIdx := s.cloneIdx + 1 }
    else s
  | .other => s

/-- `ObjMeshIO::load`, restricted to the face-grouping logic: fold the
line loop over the file's lines starting from the fresh loop state. -/
def load (lines : List ObjLine) : LoadState :=
  lines.foldl loadStep initLoadState

end ObjMeshIO

namespace PhysIKA

/-- `FastMultiphaseSPH::advance` (FastMultiphaseSPH.cpp): the body is the
single statement `m_msph->step();` — one step of the internal multiphase
SPH solver, whose state is abstracted as `S` and whose `step()` member
(implemented outside this repository part) is abstracted as a function
`S → S`.  The `dt` argument (of arbitrary type `R`, `Real` in the source)
is not used, as the source comments: "dt not used here as its managed by
external solver". -/
def FastMultiphaseSPH.advance {S R : Type} (step : S → S) (dt : R) (s : S) : S :=
  step s

end PhysIKA

namespace Physika

/-- The unit square domain `[0,1]^2`, used as concrete witness data. -/
def unitSquareCorners : (Fin 2 → Bool) → Fin 2 → ℚ :=
  boxDomain (fun _ => 0) (fun _ => 1)

/-- A concrete 2D particle whose current and reference domains are both
the unit square, used as witness data. -/
def sampleParticle : MPMParticle 2 ℚ :=
  ⟨fun _ => 0, unitSquareCorners, unitSquareCorners, 1⟩

/-- A concrete support-node entry, used as witness data. -/
def sampleEntry : NodeEntry 2 ℚ :=
  ⟨fun _ => 0, 1, fun _ => 0⟩

/-- Concrete per-corner support data (one entry per corner, all of it
valid), used as witness data. -/
def sampleCornerData : CornerWeightData 2 ℚ :=
  fun _ => ([sampleEntry], 1)

/-- A support enumeration with three overlapping nodes at every query
point, used as witness data for the capacity check. -/
def sampleWideSupport : (Fin 2 → ℚ) → List (NodeEntry 2 ℚ) :=
  fun _ => [sampleEntry, sampleEntry, sampleEntry]

end Physika

namespace Physika

variable {K : Type} [Field K] {d : ℕ}

/-- A sum over all corners of a product over axes of per-axis factors is
the product over axes of the per-axis Bool-sums. -/
theorem sum_corners_prod (t : Fin d → Bool → K) :
    ∑ c : Fin d → Bool, ∏ i, t i (c i) = ∏ i, (t i true + t i false) := by
  rw [← Fintype.prod_sum t]
  exact Finset.prod_congr rfl fun i _ => by rw [Fintype.sum_bool]

/-- The positive corner sign. -/
@[simp] theorem cornerSign_true : (cornerSign true : K) = 1 := rfl

/-- The negative corner sign. -/
@[simp] theorem cornerSign_false : (cornerSign false : K) = -1 := rfl

/-- Two halves make a whole, away from characteristic two. -/
theorem half_add_half (h2 : (2 : K) ≠ 0) : (1 : K) / 2 + 1 / 2 = 1 := by
  rw [div_add_div_same, one_add_one_eq_two, div_self h2]

/-- Partition of unity of the corner shape functions at every natural
point (away from characteristic two). -/
theorem sum_shapeValue (h2 : (2 : K) ≠ 0) (ξ : Fin d → K) :
    ∑ c : Fin d → Bool, shapeValue c ξ = 1 := by
  unfold shapeValue
  rw [sum_corners_prod fun i b => (1 + cornerSign b * ξ i) / 2]
  rw [Finset.prod_eq_one]
  intro i _
  rw [cornerSign_true, cornerSign_false]
  linear_combination half_add_half h2

/-- The corner shape-function gradients sum to zero at every natural
point. -/
theorem sum_shapeGradient (ξ : Fin d → K) (i : Fin d) :
    ∑ c : Fin d → Bool, shapeGradient c ξ i = 0 := by
  unfold shapeGradient
  rw [sum_corners_prod
    fun j b => if j = i then cornerSign b / 2 else (1 + cornerSign b * ξ j) / 2]
  apply Finset.prod_eq_zero (Finset.mem_univ i)
  rw [if_pos rfl, if_pos rfl, cornerSign_true, cornerSign_false]
  ring

/-- Weighting the shape-function gradients by a corner sign and summing
over corners picks out the Kronecker delta of the two axes. -/
theorem sum_sign_shapeGradient (h2 : (2 : K) ≠ 0) (ξ : Fin d → K) (k i : Fin d) :
    ∑ c : Fin d → Bool, cornerSign (c k) * shapeGradient c ξ i
      = if i = k then 1 else 0 := by
  have hrw : ∀ c : Fin d → Bool, cornerSign (c k) * shapeGradient c ξ i
      = ∏ j, ((if j = k then cornerSign (c j) else 1) *
          (if j = i then cornerSign (c j) / 2 else (1 + cornerSign (c j) * ξ j) / 2)) := by
    intro c
    rw [Finset.prod_mul_distrib, Finset.prod_ite_eq' Finset.univ k fun j => (cornerSign (c j) : K)]
    simp [shapeGradient]
  rw [Finset.sum_congr rfl fun c _ => hrw c]
  rw [sum_corners_prod fun j b => (if j = k then cornerSign b else 1) *
    (if j = i then cornerSign b / 2 else (1 + cornerSign b * ξ j) / 2)]
  have hfac : ∀ j : Fin d,
      ((if j = k then (cornerSign true : K) else 1) *
          (if j = i then cornerSign true / 2 else (1 + cornerSign true * ξ j) / 2)
        + (if j = k then (cornerSign false : K) else 1) *
          (if j = i then cornerSign false / 2 else (1 + cornerSign false * ξ j) / 2))
      = if j = i then (if j = k then 1 else 0) else (if j = k then ξ j else 1) := by
    intro j
    by_cases hk : j = k
    · by_cases hi : j = i
      · simp only [if_pos hk, if_pos hi, cornerSign_true, cornerSign_false]
        linear_combination half_add_half h2
      · simp only [if_pos hk, if_neg hi, cornerSign_true, cornerSign_false]
        linear_combination (ξ j) * half_add_half h2
    · by_cases hi : j = i
      · simp only [if_neg hk, if_pos hi, cornerSign_true, cornerSign_false]
        ring
      · simp only [if_neg hk, if_neg hi, cornerSign_true, cornerSign_false]
        linear_combination half_add_half h2
  rw [Finset.prod_congr rfl fun j _ => hfac j]
  by_cases hik : i = k
  · subst hik
    rw [if_pos rfl, Finset.prod_eq_one]
    intro j _
    by_cases hj : j = i
    · rw [if_pos hj, if_pos hj]
    · rw [if_neg hj, if_neg hj]
  · rw [if_neg hik]
    apply Finset.prod_eq_zero (Finset.mem_univ i)
    rw [if_pos rfl, if_neg hik]

/-- The Jacobian of a domain whose corner positions are affine in the
corner signs is the diagonal matrix of the per-axis half extents,
independently of the evaluation point. -/
theorem particleDomainJacobian_affine (h2 : (2 : K) ≠ 0) (center half : Fin d → K)
    (ξ : Fin d → K) :
    particleDomainJacobian ξ (fun c i => center i + half i * cornerSign (c i))
      = Matrix.diagonal half := by
  ext i j
  simp only [particleDomainJacobian, Matrix.of_apply]
  have hsplit : ∀ c : Fin d → Bool,
      (center j + half j * cornerSign (c j)) * shapeGradient c ξ i
        = center j * shapeGradient c ξ i
          + half j * (cornerSign (c j) * shapeGradient c ξ i) := by
    intro c; ring
  rw [Finset.sum_congr rfl fun c _ => hsplit c, Finset.sum_add_distrib,
    ← Finset.mul_sum, ← Finset.mul_sum, sum_shapeGradient,
    sum_sign_shapeGradient h2 ξ j i, mul_zero, zero_add]
  by_cases h : i = j
  · subst h
    rw [if_pos rfl, mul_one, Matrix.diagonal_apply_eq]
  · rw [if_neg h, mul_zero, Matrix.diagonal_apply_ne _ h]

/-- An axis-aligned box domain, written as an affine function of the
corner signs (away from characteristic two). -/
theorem boxDomain_eq_affine (h2 : (2 : K) ≠ 0) (lo hi : Fin d → K) :
    boxDomain lo hi
      = fun c i => (lo i + hi i) / 2 + ((hi i - lo i) / 2) * cornerSign (c i) := by
  funext c i
  cases hc : c i
  · simp only [boxDomain, hc, cornerSign_false, if_false, Bool.false_eq_true]
    linear_combination (-(lo i)) * half_add_half h2
  · simp only [boxDomain, hc, cornerSign_true, if_true]
    linear_combination (-(hi i)) * half_add_half h2

/-- The Jacobian of an axis-aligned box domain is diagonal with the
half edge lengths on the diagonal, at every evaluation point. -/
theorem particleDomainJacobian_box (h2 : (2 : K) ≠ 0) (lo hi : Fin d → K)
    (ξ : Fin d → K) :
    particleDomainJacobian ξ (boxDomain lo hi)
      = Matrix.diagonal (fun i => (hi i - lo i) / 2) := by
  rw [boxDomain_eq_affine h2, particleDomainJacobian_affine h2]

/-- Determinant of the box-domain Jacobian. -/
theorem det_particleDomainJacobian_box (h2 : (2 : K) ≠ 0) (lo hi : Fin d → K)
    (ξ : Fin d → K) :
    (particleDomainJacobian ξ (boxDomain lo hi)).det = ∏ i, (hi i - lo i) / 2 := by
  rw [particleDomainJacobian_box h2, Matrix.det_diagonal]

/-- The Gauss-quadrature volume of an axis-aligned box domain is the
product of its edge lengths. -/
theorem particleDomainVolume_box (h2 : (2 : K) ≠ 0) (g : K) (lo hi : Fin d → K) :
    particleDomainVolume g (boxDomain lo hi) = ∏ i, (hi i - lo i) := by
  unfold particleDomainVolume
  rw [Finset.sum_congr rfl fun p _ => det_particleDomainJacobian_box h2 lo hi _]
  rw [Finset.sum_const, Finset.card_univ, Fintype.card_fun, Fintype.card_bool,
    Fintype.card_fin, Finset.prod_div_distrib, Finset.prod_const, Finset.card_univ,
    Fintype.card_fin, nsmul_eq_mul]
  push_cast
  rw [mul_comm, div_mul_eq_mul_div, mul_div_assoc, div_self (pow_ne_zero d h2), mul_one]

/-- The explicit inverse is a left inverse when the determinant does not
vanish. -/
theorem matInv_mul {A : Matrix (Fin d) (Fin d) K} (h : A.det ≠ 0) :
    matInv A * A = 1 := by
  unfold matInv
  rw [Matrix.smul_mul, Matrix.adjugate_mul, smul_smul, inv_mul_cancel₀ h, one_smul]

/-- Pointwise CPDI2 identity: at any natural point with invertible
Jacobian, summing the corner positions weighted by the physical shape
gradients reproduces the identity matrix. -/
theorem sum_corner_matInv_grad (pd : (Fin d → Bool) → Fin d → K) (ξ : Fin d → K)
    (h : (particleDomainJacobian ξ pd).det ≠ 0) (j k : Fin d) :
    ∑ c : Fin d → Bool,
        pd c j * (matInv (particleDomainJacobian ξ pd)).mulVec (shapeGradient c ξ) k
      = (1 : Matrix (Fin d) (Fin d) K) k j := by
  simp only [Matrix.mulVec, Matrix.dotProduct]
  calc
    ∑ c : Fin d → Bool, pd c j * ∑ i, matInv (particleDomainJacobian ξ pd) k i * shapeGradient c ξ i
        = ∑ c : Fin d → Bool, ∑ i, matInv (particleDomainJacobian ξ pd) k i * (pd c j * shapeGradient c ξ i) := by
          refine Finset.sum_congr rfl fun c _ => ?_
          rw [Finset.mul_sum]
          exact Finset.sum_congr rfl fun i _ => by ring
    _ = ∑ i, ∑ c : Fin d → Bool, matInv (particleDomainJacobian ξ pd) k i * (pd c j * shapeGradient c ξ i) :=
          Finset.sum_comm
    _ = ∑ i, matInv (particleDomainJacobian ξ pd) k i * particleDomainJacobian ξ pd i j := by
          refine Finset.sum_congr rfl fun i _ => ?_
          rw [← Finset.mul_sum]
          simp only [particleDomainJacobian, Matrix.of_apply]
    _ = (matInv (particleDomainJacobian ξ pd) * particleDomainJacobian ξ pd) k j :=
          (Matrix.mul_apply).symm
    _ = (1 : Matrix (Fin d) (Fin d) K) k j := by rw [matInv_mul h]

/-- Indexing `mapIdxFrom`. -/
theorem mapIdxFrom_get? (f : ℕ → α → β) :
    ∀ (l : List α) (n k : ℕ), (mapIdxFrom f n l).get? k = (l.get? k).map (f (n + k))
  | [], n, k => by simp [mapIdxFrom]
  | a :: as, n, 0 => by simp [mapIdxFrom]
  | a :: as, n, k + 1 => by
    have h := mapIdxFrom_get? f as (n + 1) k
    simp only [mapIdxFrom, List.get?]
    rw [h, show n + 1 + k = n + (k + 1) from by omega]

/-- Indexing the generic per-particle update. -/
theorem getParticle_updateEachParticle (f : ℕ → ℕ → MPMParticle d K → MPMParticle d K)
    (objs : List (List (MPMParticle d K))) (o p : ℕ) :
    getParticle (updateEachParticle f objs) o p = (getParticle objs o p).map (f o p) := by
  unfold getParticle updateEachParticle
  rw [mapIdxFrom_get?, Nat.zero_add]
  cases h : objs.get? o
  · simp
  · simp only [Option.map_some', Option.some_bind]
    rw [mapIdxFrom_get?, Nat.zero_add]

/-- The position rule never touches the reference corners. -/
theorem positionRule_referenceCorners (flag : Option Bool) (part : MPMParticle d K) :
    (positionRule flag part).referenceCorners = part.referenceCorners := by
  rcases flag with _ | b
  · rfl
  · cases b <;> rfl

/-- The domain rule never touches the reference corners. -/
theorem domainRule_referenceCorners (gridVel : (Fin d → ℕ) → Fin d → K) (dt : K)
    (data : Option (CornerWeightData d K)) (part : MPMParticle d K) :
    (domainRule gridVel dt data part).referenceCorners = part.referenceCorners := by
  rcases data with _ | cd <;> rfl

/-- The deformation-gradient rule never touches the reference corners. -/
theorem deformationGradientRule_referenceCorners (g : K) (part : MPMParticle d K) :
    (deformationGradientRule g part).referenceCorners = part.referenceCorners := rfl

/-- Claim C1: for every non-Dirichlet particle, `updateParticlePosition`
sets the particle's position to the exact arithmetic mean of that
particle's current-configuration domain-corner positions (`cornerAverage`
divides the corner sum by `2^d`: 4 corners in 2D, 8 in 3D).  The theorem
is generic in the dimension, covering both template specializations, and
the routine is the single position update used for enriched and
non-enriched particles alike. -/
theorem updateParticlePosition_corner_mean
    (dt : K) (flags : List (List Bool)) (objs : List (List (MPMParticle d K)))
    (o p : ℕ) (part : MPMParticle d K)
    (hpart : getParticle objs o p = some part)
    (hflag : (flags.get? o).bind (fun l => l.get? p) = some false) :
    getParticle (updateParticlePosition dt flags objs) o p
      = some { part with position := cornerAverage part.currentCorners } := by
  unfold updateParticlePosition
  rw [getParticle_updateEachParticle, hpart, Option.map_some', hflag]
  rfl

/-- Witness for claim C1 at a concrete one-particle state. -/
theorem updateParticlePosition_corner_mean_witness :
    getParticle [[sampleParticle]] 0 0 = some sampleParticle ∧
    ((([[false]] : List (List Bool)).get? 0).bind (fun l => l.get? 0)) = some false ∧
    getParticle (updateParticlePosition (1 : ℚ) [[false]] [[sampleParticle]]) 0 0
      = some { sampleParticle with position := cornerAverage sampleParticle.currentCorners } :=
  ⟨rfl, rfl,
    updateParticlePosition_corner_mean 1 [[false]] [[sampleParticle]] 0 0 sampleParticle rfl rfl⟩

/-- Claim C5: a particle whose Dirichlet flag is set is left entirely
unchanged by `updateParticlePosition`, regardless of the values of its
domain-corner positions. -/
theorem updateParticlePosition_dirichlet_unchanged
    (dt : K) (flags : List (List Bool)) (objs : List (List (MPMParticle d K)))
    (o p : ℕ) (part : MPMParticle d K)
    (hpart : getParticle objs o p = some part)
    (hflag : (flags.get? o).bind (fun l => l.get? p) = some true) :
    getParticle (updateParticlePosition dt flags objs) o p = some part := by
  unfold updateParticlePosition
  rw [getParticle_updateEachParticle, hpart, Option.map_some', hflag]
  rfl

/-- Witness for claim C5 at a concrete one-particle state. -/
theorem updateParticlePosition_dirichlet_unchanged_witness :
    getParticle [[sampleParticle]] 0 0 = some sampleParticle ∧
    ((([[true]] : List (List Bool)).get? 0).bind (fun l => l.get? 0)) = some true ∧
    getParticle (updateParticlePosition (1 : ℚ) [[true]] [[sampleParticle]]) 0 0
      = some sampleParticle :=
  ⟨rfl, rfl,
    updateParticlePosition_dirichlet_unchanged 1 [[true]] [[sampleParticle]] 0 0
      sampleParticle rfl rfl⟩

/-- Claim C2: `updateParticleDomain` replaces every corner's current
position by `corner_position + dt * Σ (weight_i * grid_velocity_i)` over
the corner's valid support-node entries (`advectedCorners`, where
`interpolatedCornerVelocity` sums over the valid prefix of the entry
list): a single explicit forward-Euler step, with no sub-stepping or
implicit correction. -/
theorem updateParticleDomain_forward_euler
    (gridVel : (Fin d → ℕ) → Fin d → K)
    (cornerData : List (List (CornerWeightData d K))) (dt : K)
    (objs : List (List (MPMParticle d K))) (o p : ℕ)
    (part : MPMParticle d K) (cd : CornerWeightData d K)
    (hpart : getParticle objs o p = some part)
    (hcd : (cornerData.get? o).bind (fun l => l.get? p) = some cd) :
    getParticle (updateParticleDomain gridVel cornerData dt objs) o p
      = some { part with currentCorners := advectedCorners gridVel dt cd part.currentCorners } := by
  unfold updateParticleDomain
  rw [getParticle_updateEachParticle, hpart, Option.map_some', hcd]
  rfl

/-- Witness for claim C2 at a concrete one-particle state. -/
theorem updateParticleDomain_forward_euler_witness :
    getParticle [[sampleParticle]] 0 0 = some sampleParticle ∧
    ((([[sampleCornerData]] : List (List (CornerWeightData 2 ℚ))).get? 0).bind
      (fun l => l.get? 0)) = some sampleCornerData ∧
    getParticle
        (updateParticleDomain (fun _ _ => (1 : ℚ)) [[sampleCornerData]] (1 / 2) [[sampleParticle]])
        0 0
      = some { sampleParticle with currentCorners := (advectedCorners (fun _ _ => (1 : ℚ))
          (1 / 2) sampleCornerData sampleParticle.currentCorners) } :=
  ⟨rfl, rfl,
    updateParticleDomain_forward_euler (fun _ _ => (1 : ℚ)) [[sampleCornerData]] (1 / 2)
      [[sampleParticle]] 0 0 sampleParticle sampleCornerData rfl rfl⟩

/-- Claim C6: no update routine mutates the reference-configuration
(initial) domain corners: `updateParticleDomain`,
`updateParticlePosition` and `updateParticleDeformationGradient` all
preserve every particle's `referenceCorners` field (the weight
computation, `updateParticleInterpolationWeight`, is a pure function of
the particle state into fresh weight buffers and transforms no particle
state at all). -/
theorem update_routines_preserve_referenceCorners :
    (∀ (gridVel : (Fin d → ℕ) → Fin d → K)
        (cornerData : List (List (CornerWeightData d K))) (dt : K)
        (objs : List (List (MPMParticle d K))) (o p : ℕ),
      (getParticle (updateParticleDomain gridVel cornerData dt objs) o p).map
          (fun q => q.referenceCorners)
        = (getParticle objs o p).map fun q => q.referenceCorners) ∧
    (∀ (dt : K) (flags : List (List Bool))
        (objs : List (List (MPMParticle d K))) (o p : ℕ),
      (getParticle (updateParticlePosition dt flags objs) o p).map
          (fun q => q.referenceCorners)
        = (getParticle objs o p).map fun q => q.referenceCorners) ∧
    (∀ (g : K) (objs : List (List (MPMParticle d K))) (o p : ℕ),
      (getParticle (updateParticleDeformationGradient g objs) o p).map
          (fun q => q.referenceCorners)
        = (getParticle objs o p).map fun q => q.referenceCorners) := by
  refine ⟨fun gridVel cornerData dt objs o p => ?_, fun dt flags objs o p => ?_,
    fun g objs o p => ?_⟩
  · unfold updateParticleDomain
    rw [getParticle_updateEachParticle]
    cases hq : getParticle objs o p
    · rfl
    · simp [domainRule_referenceCorners]
  · unfold updateParticlePosition
    rw [getParticle_updateEachParticle]
    cases hq : getParticle objs o p
    · rfl
    · simp [positionRule_referenceCorners]
  · unfold updateParticleDeformationGradient
    rw [getParticle_updateEachParticle]
    cases hq : getParticle objs o p
    · rfl
    · simp [deformationGradientRule_referenceCorners]

/-- Claim C7: for a non-degenerate, undistorted axis-aligned square/cube
domain with half edge length `h`, the determinant of
`particleDomainJacobian` equals the constant `h ^ d`
((half-edge-length)^Dim) at every natural-coordinate evaluation point.
The scalar field must not have characteristic two (true of the real
scalars the code computes with). -/
theorem cubeDomain_jacobian_det (h2 : (2 : K) ≠ 0) (center : Fin d → K)
    (h : K) (hne : h ≠ 0) (ξ : Fin d → K) :
    (particleDomainJacobian ξ (cubeDomain center h)).det = h ^ d := by
  rw [show particleDomainJacobian ξ (cubeDomain center h)
      = Matrix.diagonal (fun _ : Fin d => h) from
    particleDomainJacobian_affine h2 center (fun _ => h) ξ]
  rw [Matrix.det_diagonal, Finset.prod_const, Finset.card_univ, Fintype.card_fin]

/-- Witness for claim C7: the unit-half-edge cube in three dimensions,
evaluated at the natural origin. -/
theorem cubeDomain_jacobian_det_witness :
    ((2 : ℚ) ≠ 0) ∧ ((1 : ℚ) ≠ 0) ∧
    (particleDomainJacobian (fun _ : Fin 3 => (0 : ℚ))
        (cubeDomain (fun _ : Fin 3 => (0 : ℚ)) 1)).det = 1 ^ 3 :=
  ⟨by norm_num, by norm_num,
    cubeDomain_jacobian_det (by norm_num) (fun _ => 0) 1 (by norm_num) (fun _ => 0)⟩

/-- Claim C8: for every particle domain, the sum over all domain corners
of the Gauss-integrated shape-function values equals the domain's
Gauss-rule volume (3D) / area (2D) — the partition-of-unity identity —
and for an axis-aligned box that volume is exactly the product of the
edge lengths. -/
theorem gauss_shape_partition_of_unity (h2 : (2 : K) ≠ 0) (g : K) :
    (∀ pd : (Fin d → Bool) → Fin d → K,
        ∑ c : Fin d → Bool, gaussIntegrateShapeFunctionValueInParticleDomain g c pd
          = particleDomainVolume g pd) ∧
    (∀ lo hi : Fin d → K,
        particleDomainVolume g (boxDomain lo hi) = ∏ i, (hi i - lo i)) := by
  constructor
  · intro pd
    unfold gaussIntegrateShapeFunctionValueInParticleDomain particleDomainVolume
    rw [Finset.sum_comm]
    refine Finset.sum_congr rfl fun q _ => ?_
    rw [← Finset.sum_mul, sum_shapeValue h2, one_mul]
  · intro lo hi
    exact particleDomainVolume_box h2 g lo hi

/-- Witness for claim C8: the unit square, with an arbitrary rational
quadrature abscissa. -/
theorem gauss_shape_partition_of_unity_witness :
    ((2 : ℚ) ≠ 0) ∧
    (∑ c : Fin 2 → Bool,
        gaussIntegrateShapeFunctionValueInParticleDomain (1 / 2) c
          (boxDomain (fun _ : Fin 2 => (0 : ℚ)) (fun _ => 1))
      = particleDomainVolume (1 / 2)
          (boxDomain (fun _ : Fin 2 => (0 : ℚ)) (fun _ => 1))) ∧
    (particleDomainVolume ((1 : ℚ) / 2)
        (boxDomain (fun _ : Fin 2 => (0 : ℚ)) (fun _ => 1))
      = ∏ i : Fin 2, ((fun _ : Fin 2 => (1 : ℚ)) i - (fun _ : Fin 2 => (0 : ℚ)) i)) :=
  ⟨by norm_num,
    (gauss_shape_partition_of_unity (by norm_num) (1 / 2)).1
      (boxDomain (fun _ => 0) (fun _ => 1)),
    (gauss_shape_partition_of_unity (by norm_num) (1 / 2)).2
      (fun _ => 0) (fun _ => 1)⟩

/-- CPDI2 deformation-gradient core identity: when the current corners
coincide with the reference corners and the reference domain is
non-degenerate at every quadrature point, the volume-averaged sum of
outer products of corner positions with the Gauss-integrated reference
shape gradients is the identity matrix. -/
theorem corner_outer_product_identity (g : K)
    (pd0 : (Fin d → Bool) → Fin d → K)
    (hdet : ∀ q : Fin d → Bool, (particleDomainJacobian (gaussPoint g q) pd0).det ≠ 0)
    (hvol : particleDomainVolume g pd0 ≠ 0) :
    (particleDomainVolume g pd0)⁻¹ •
        ∑ c : Fin d → Bool,
          Matrix.vecMulVec (pd0 c)
            (gaussIntegrateShapeFunctionGradientToReferenceCoordinateInParticleDomain
              g c pd0 pd0)
      = (1 : Matrix (Fin d) (Fin d) K) := by
  ext j k
  rw [Matrix.smul_apply, Matrix.sum_apply, smul_eq_mul]
  have hterm : ∀ c : Fin d → Bool,
      Matrix.vecMulVec (pd0 c)
          (gaussIntegrateShapeFunctionGradientToReferenceCoordinateInParticleDomain
            g c pd0 pd0) j k
        = ∑ q : Fin d → Bool,
            (particleDomainJacobian (gaussPoint g q) pd0).det *
              (pd0 c j *
                (matInv (particleDomainJacobian (gaussPoint g q) pd0)).mulVec
                  (shapeGradient c (gaussPoint g q)) k) := by
    intro c
    rw [Matrix.vecMulVec_apply]
    unfold gaussIntegrateShapeFunctionGradientToReferenceCoordinateInParticleDomain
    rw [Finset.sum_apply, Finset.mul_sum]
    refine Finset.sum_congr rfl fun q _ => ?_
    rw [Pi.smul_apply, smul_eq_mul]
    ring
  rw [Finset.sum_congr rfl fun c _ => hterm c, Finset.sum_comm]
  have hq : ∀ q : Fin d → Bool,
      ∑ c : Fin d → Bool,
          (particleDomainJacobian (gaussPoint g q) pd0).det *
            (pd0 c j *
              (matInv (particleDomainJacobian (gaussPoint g q) pd0)).mulVec
                (shapeGradient c (gaussPoint g q)) k)
        = (particleDomainJacobian (gaussPoint g q) pd0).det *
            (1 : Matrix (Fin d) (Fin d) K) k j := by
    intro q
    rw [← Finset.mul_sum, sum_corner_matInv_grad pd0 (gaussPoint g q) (hdet q) j k]
  rw [Finset.sum_congr rfl fun q _ => hq q, ← Finset.sum_mul]
  have hV : (∑ q : Fin d → Bool, (particleDomainJacobian (gaussPoint g q) pd0).det)
      = particleDomainVolume g pd0 := rfl
  rw [hV, ← mul_assoc, inv_mul_cancel₀ hvol, one_mul]
  by_cases hjk : j = k
  · rw [hjk]
  · rw [Matrix.one_apply_ne fun hkj => hjk hkj.symm, Matrix.one_apply_ne hjk]

/-- Claim C3: `updateParticleDeformationGradient` reconstructs the
deformation gradient as the (volume-averaged) sum over domain corners of
the outer product of the current corner position with the
Gauss-integrated reference shape gradient
(`gaussIntegrateShapeFunctionGradientToReferenceCoordinateInParticleDomain`
over the initial domain); consequently every particle whose current
corners equal its reference corners, with a non-degenerate reference
domain, gets exactly the identity matrix as its deformation gradient. -/
theorem updateParticleDeformationGradient_identity
    (g : K) (objs : List (List (MPMParticle d K))) (o p : ℕ) (part : MPMParticle d K)
    (hpart : getParticle objs o p = some part)
    (hsame : part.currentCorners = part.referenceCorners)
    (hdet : ∀ q : Fin d → Bool,
      (particleDomainJacobian (gaussPoint g q) part.referenceCorners).det ≠ 0)
    (hvol : particleDomainVolume g part.referenceCorners ≠ 0) :
    getParticle (updateParticleDeformationGradient g objs) o p
      = some { part with deformationGradient := 1 } := by
  unfold updateParticleDeformationGradient
  rw [getParticle_updateEachParticle, hpart, Option.map_some']
  unfold deformationGradientRule
  rw [hsame, corner_outer_product_identity g part.referenceCorners hdet hvol]

/-- Witness for claim C3: a particle whose current and reference domains
are both the unit square. -/
theorem updateParticleDeformationGradient_identity_witness :
    getParticle [[sampleParticle]] 0 0 = some sampleParticle ∧
    sampleParticle.currentCorners = sampleParticle.referenceCorners ∧
    (∀ q : Fin 2 → Bool,
      (particleDomainJacobian (gaussPoint ((1 : ℚ) / 2) q)
        sampleParticle.referenceCorners).det ≠ 0) ∧
    particleDomainVolume ((1 : ℚ) / 2) sampleParticle.referenceCorners ≠ 0 ∧
    getParticle (updateParticleDeformationGradient ((1 : ℚ) / 2) [[sampleParticle]]) 0 0
      = some { sampleParticle with deformationGradient := 1 } := by
  have hdet : ∀ q : Fin 2 → Bool,
      (particleDomainJacobian (gaussPoint ((1 : ℚ) / 2) q)
        sampleParticle.referenceCorners).det ≠ 0 := by
    intro q
    show (particleDomainJacobian (gaussPoint ((1 : ℚ) / 2) q)
      (boxDomain (fun _ => 0) (fun _ => 1))).det ≠ 0
    rw [det_particleDomainJacobian_box (by norm_num)]
    norm_num
  have hvol : particleDomainVolume ((1 : ℚ) / 2) sampleParticle.referenceCorners ≠ 0 := by
    show particleDomainVolume ((1 : ℚ) / 2) (boxDomain (fun _ => 0) (fun _ => 1)) ≠ 0
    rw [particleDomainVolume_box (by norm_num)]
    norm_num
  exact ⟨rfl, rfl, hdet, hvol,
    updateParticleDeformationGradient_identity ((1 : ℚ) / 2) [[sampleParticle]] 0 0
      sampleParticle rfl rfl hdet hvol⟩

/-- Every corner occurs in `cornersList`. -/
theorem mem_cornersList : ∀ {n : ℕ} (c : Fin n → Bool), c ∈ cornersList n
  | 0, c => by
    simp only [cornersList, List.mem_singleton]
    funext i
    exact i.elim0
  | n + 1, c => by
    simp only [cornersList, List.mem_flatMap]
    refine ⟨Fin.tail c, mem_cornersList (Fin.tail c), ?_⟩
    have hcons : Fin.cons (c 0) (Fin.tail c) = c := Fin.cons_self_tail c
    cases hc : c 0
    · rw [hc] at hcons
      rw [← hcons]
      exact List.mem_cons_self _ _
    · rw [hc] at hcons
      rw [← hcons]
      exact List.mem_cons_of_mem _ (List.mem_cons_self _ _)

/-- A `computeParticleWeights` error identifies a genuine capacity
offender. -/
theorem computeParticleWeights_error
    (support : (Fin d → K) → List (NodeEntry d K)) (cap o p : ℕ)
    (part : MPMParticle d K) (e : CapacityError d)
    (h : computeParticleWeights support cap o p part = .error e) :
    e.object = o ∧ e.particle = p ∧ offendsCapacity support cap part e.corner := by
  simp only [computeParticleWeights] at h
  split at h
  case isTrue h1 =>
    cases h
    exact ⟨rfl, rfl, h1⟩
  case isFalse h1 =>
    split at h
    case h_1 c heq =>
      cases h
      refine ⟨rfl, rfl, ?_⟩
      show cap < (support (part.currentCorners c)).length
      have hc := List.find?_some heq
      exact of_decide_eq_true hc
    case h_2 heq =>
      exact Except.noConfusion h

/-- A `computeParticleWeights` success stores the full, untruncated
support lists, all of which are within capacity. -/
theorem computeParticleWeights_ok
    (support : (Fin d → K) → List (NodeEntry d K)) (cap o p : ℕ)
    (part : MPMParticle d K) (w : WeightOutput d K)
    (h : computeParticleWeights support cap o p part = .ok w) :
    w = expectedWeightOutput support part ∧
    (support (cornerAverage part.currentCorners)).length ≤ cap ∧
    ∀ c : Fin d → Bool, (support (part.currentCorners c)).length ≤ cap := by
  simp only [computeParticleWeights] at h
  split at h
  case isTrue h1 => exact Except.noConfusion h
  case isFalse h1 =>
    split at h
    case h_1 c heq => exact Except.noConfusion h
    case h_2 heq =>
      cases h
      refine ⟨rfl, Nat.le_of_not_lt h1, fun c => ?_⟩
      have hnot := List.find?_eq_none.mp heq c (mem_cornersList c)
      exact Nat.le_of_not_lt fun hlt => hnot (decide_eq_true hlt)

/-- A `computeWeightsRow` error comes from a genuine offender at the
reported particle index. -/
theorem computeWeightsRow_error (support : (Fin d → K) → List (NodeEntry d K))
    (cap o : ℕ) :
    ∀ (parts : List (MPMParticle d K)) (p0 : ℕ) (e : CapacityError d),
      computeWeightsRow support cap o p0 parts = .error e →
      ∃ j part, parts.get? j = some part ∧ e.object = o ∧ e.particle = p0 + j ∧
        offendsCapacity support cap part e.corner := by
  intro parts
  induction parts with
  | nil =>
    intro p0 e h
    exact Except.noConfusion (show (Except.ok [] :
      Except (CapacityError d) (List (WeightOutput d K))) = .error e from h)
  | cons part0 rest ih =>
    intro p0 e h
    simp only [computeWeightsRow] at h
    cases hper : computeParticleWeights support cap o p0 part0 with
    | error e' =>
      rw [hper] at h
      have h2 : (Except.error e' :
          Except (CapacityError d) (List (WeightOutput d K))) = .error e := h
      cases h2
      obtain ⟨ho, hp, hoff⟩ := computeParticleWeights_error support cap o p0 part0 e hper
      exact ⟨0, part0, rfl, ho, by rw [Nat.add_zero]; exact hp, hoff⟩
    | ok w =>
      rw [hper] at h
      cases hrow : computeWeightsRow support cap o (p0 + 1) rest with
      | error e'' =>
        rw [hrow] at h
        have h2 : (Except.error e'' :
            Except (CapacityError d) (List (WeightOutput d K))) = .error e := h
        cases h2
        obtain ⟨j, part, hget, ho, hp, hoff⟩ := ih (p0 + 1) e hrow
        refine ⟨j + 1, part, hget, ho, ?_, hoff⟩
        rw [hp]
        omega
      | ok ws =>
        rw [hrow] at h
        exact Except.noConfusion (show (Except.ok (w :: ws) :
          Except (CapacityError d) (List (WeightOutput d K))) = .error e from h)

/-- A `computeWeightsRow` success stores, for every particle of the row,
the full untruncated support lists, all within capacity. -/
theorem computeWeightsRow_ok (support : (Fin d → K) → List (NodeEntry d K))
    (cap o : ℕ) :
    ∀ (parts : List (MPMParticle d K)) (p0 : ℕ) (ws : List (WeightOutput d K)),
      computeWeightsRow support cap o p0 parts = .ok ws →
      ∀ j part, parts.get? j = some part →
        ws.get? j = some (expectedWeightOutput support part) ∧
        (support (cornerAverage part.currentCorners)).length ≤ cap ∧
        ∀ c : Fin d → Bool, (support (part.currentCorners c)).length ≤ cap := by
  intro parts
  induction parts with
  | nil =>
    intro p0 ws h j part hj
    exact Option.noConfusion (show (none : Option (MPMParticle d K)) = some part from hj)
  | cons part0 rest ih =>
    intro p0 ws h j part hj
    simp only [computeWeightsRow] at h
    cases hper : computeParticleWeights support cap o p0 part0 with
    | error e' =>
      rw [hper] at h
      exact Except.noConfusion (show (Except.error e' :
        Except (CapacityError d) (List (WeightOutput d K))) = .ok ws from h)
    | ok w =>
      rw [hper] at h
      cases hrow : computeWeightsRow support cap o (p0 + 1) rest with
      | error e'' =>
        rw [hrow] at h
        exact Except.noConfusion (show (Except.error e'' :
          Except (CapacityError d) (List (WeightOutput d K))) = .ok ws from h)
      | ok ws' =>
        rw [hrow] at h
        have h2 : (Except.ok (w :: ws') :
            Except (CapacityError d) (List (WeightOutput d K))) = .ok ws := h
        cases h2
        cases j with
        | zero =>
          have hj2 : (some part0 : Option (MPMParticle d K)) = some part := hj
          cases hj2
          obtain ⟨hw, hb1, hb2⟩ :=
            computeParticleWeights_ok support cap o p0 part0 w hper
          exact ⟨by rw [show ((w :: ws').get? 0) = some w from rfl, hw], hb1, hb2⟩
        | succ j' =>
          exact ih (p0 + 1) ws' hrow j' part hj

/-- A `computeWeightsAll` error comes from a genuine offender at the
reported object and particle indices. -/
theorem computeWeightsAll_error (support : (Fin d → K) → List (NodeEntry d K))
    (cap : ℕ) :
    ∀ (objsL : List (List (MPMParticle d K))) (o0 : ℕ) (e : CapacityError d),
      computeWeightsAll support cap o0 objsL = .error e →
      ∃ i obj, objsL.get? i = some obj ∧ e.object = o0 + i ∧
        ∃ j part, obj.get? j = some part ∧ e.particle = j ∧
          offendsCapacity support cap part e.corner := by
  intro objsL
  induction objsL with
  | nil =>
    intro o0 e h
    exact Except.noConfusion (show (Except.ok [] :
      Except (CapacityError d) (List (List (WeightOutput d K)))) = .error e from h)
  | cons obj0 rest ih =>
    intro o0 e h
    simp only [computeWeightsAll] at h
    cases hrow : computeWeightsRow support cap o0 0 obj0 with
    | error e' =>
      rw [hrow] at h
      have h2 : (Except.error e' :
          Except (CapacityError d) (List (List (WeightOutput d K)))) = .error e := h
      cases h2
      obtain ⟨j, part, hget, ho, hp, hoff⟩ :=
        computeWeightsRow_error support cap o0 obj0 0 e hrow
      refine ⟨0, obj0, rfl, by rw [Nat.add_zero]; exact ho, j, part, hget, ?_, hoff⟩
      rw [hp]
      omega
    | ok row =>
      rw [hrow] at h
      cases hrest : computeWeightsAll support cap (o0 + 1) rest with
      | error e'' =>
        rw [hrest] at h
        have h2 : (Except.error e'' :
            Except (CapacityError d) (List (List (WeightOutput d K)))) = .error e := h
        cases h2
        obtain ⟨i, obj, hget, ho, rest'⟩ := ih (o0 + 1) e hrest
        refine ⟨i + 1, obj, hget, ?_, rest'⟩
        rw [ho]
        omega
      | ok outs =>
        rw [hrest] at h
        exact Except.noConfusion (show (Except.ok (row :: outs) :
          Except (CapacityError d) (List (List (WeightOutput d K)))) = .error e from h)

/-- A `computeWeightsAll` success is built row-by-row from successful
`computeWeightsRow` calls. -/
theorem computeWeightsAll_ok (support : (Fin d → K) → List (NodeEntry d K))
    (cap : ℕ) :
    ∀ (objsL : List (List (MPMParticle d K))) (o0 : ℕ)
      (outs : List (List (WeightOutput d K))),
      computeWeightsAll support cap o0 objsL = .ok outs →
      ∀ i obj, objsL.get? i = some obj →
        ∃ row, outs.get? i = some row ∧
          computeWeightsRow support cap (o0 + i) 0 obj = .ok row := by
  intro objsL
  induction objsL with
  | nil =>
    intro o0 outs h i obj hi
    exact Option.noConfusion (show (none : Option (List (MPMParticle d K))) = some obj from hi)
  | cons obj0 rest ih =>
    intro o0 outs h i obj hi
    simp only [computeWeightsAll] at h
    cases hrow : computeWeightsRow support cap o0 0 obj0 with
    | error e' =>
      rw [hrow] at h
      exact Except.noConfusion (show (Except.error e' :
        Except (CapacityError d) (List (List (WeightOutput d K)))) = .ok outs from h)
    | ok row =>
      rw [hrow] at h
      cases hrest : computeWeightsAll support cap (o0 + 1) rest with
      | error e'' =>
        rw [hrest] at h
        exact Except.noConfusion (show (Except.error e'' :
          Except (CapacityError d) (List (List (WeightOutput d K)))) = .ok outs from h)
      | ok outs' =>
        rw [hrest] at h
        have h2 : (Except.ok (row :: outs') :
            Except (CapacityError d) (List (List (WeightOutput d K)))) = .ok outs := h
        cases h2
        cases i with
        | zero =>
          have hi2 : (some obj0 : Option (List (MPMParticle d K))) = some obj := hi
          cases hi2
          exact ⟨row, rfl, by rw [Nat.add_zero]; exact hrow⟩
        | succ i' =>
          obtain ⟨row', hr1, hr2⟩ := ih (o0 + 1) outs' hrest i' obj hi
          refine ⟨row', hr1, ?_⟩
          rw [show o0 + (i' + 1) = o0 + 1 + i' from by omega]
          exact hr2

/-- Claim C4: in the weight computation, if the number of grid nodes
overlapping a particle (at its corner average) or one of its corners
exceeds the pre-allocated capacity, the routine returns a fatal
`CapacityError` whose object/particle/corner indices name a genuine
offender; and on success every stored entry list is the complete support
list with its true length — nothing is silently truncated and no buffer
overflows. -/
theorem updateParticleInterpolationWeight_capacity
    (support : (Fin d → K) → List (NodeEntry d K)) (cap : ℕ)
    (objs : List (List (MPMParticle d K))) :
    (∀ e : CapacityError d,
      updateParticleInterpolationWeight support cap objs = .error e →
      ∃ part, getParticle objs e.object e.particle = some part ∧
        offendsCapacity support cap part e.corner) ∧
    (∀ out, updateParticleInterpolationWeight support cap objs = .ok out →
      ∀ o p part, getParticle objs o p = some part →
        getWeightOutput out o p = some (expectedWeightOutput support part) ∧
        (support (cornerAverage part.currentCorners)).length ≤ cap ∧
        ∀ c : Fin d → Bool, (support (part.currentCorners c)).length ≤ cap) := by
  constructor
  · intro e h
    obtain ⟨i, obj, hio, ho, j, part, hjp, hp, hoff⟩ :=
      computeWeightsAll_error support cap objs 0 e h
    refine ⟨part, ?_, hoff⟩
    unfold getParticle
    rw [ho, Nat.zero_add, hp, hio, Option.some_bind]
    exact hjp
  · intro out h o p part hop
    unfold getParticle at hop
    cases hobj : objs.get? o with
    | none =>
      rw [hobj] at hop
      exact Option.noConfusion (show (none : Option (MPMParticle d K)) = some part from hop)
    | some obj =>
      rw [hobj, Option.some_bind] at hop
      obtain ⟨row, hrow, hrowok⟩ := computeWeightsAll_ok support cap objs 0 out h o obj hobj
      obtain ⟨hget, hb1, hb2⟩ :=
        computeWeightsRow_ok support cap (0 + o) obj 0 row hrowok p part hop
      refine ⟨?_, hb1, hb2⟩
      unfold getWeightOutput
      rw [hrow, Option.some_bind]
      exact hget

/-- Witness for claim C4: a support with three overlapping nodes per
query point against capacity two raises the capacity error naming
object 0, particle 0. -/
theorem updateParticleInterpolationWeight_capacity_witness :
    updateParticleInterpolationWeight sampleWideSupport 2 [[sampleParticle]]
      = .error ⟨0, 0, none⟩ ∧
    ∃ part, getParticle [[sampleParticle]]
        (⟨0, 0, none⟩ : CapacityError 2).object
        (⟨0, 0, none⟩ : CapacityError 2).particle = some part ∧
      offendsCapacity sampleWideSupport 2 part (⟨0, 0, none⟩ : CapacityError 2).corner :=
  ⟨rfl,
    (updateParticleInterpolationWeight_capacity sampleWideSupport 2 [[sampleParticle]]).1
      ⟨0, 0, none⟩ rfl⟩

end Physika

namespace ObjMeshIO

/-- A successful first-match lookup is unaffected by groups appended on
the right. -/
theorem groupLookup_append_left (n : String) (fs : List ℕ) :
    ∀ (gs gs₂ : Groups), groupLookup n gs = some fs →
      groupLookup n (gs ++ gs₂) = some fs := by
  intro gs gs₂
  induction gs with
  | nil => exact fun h => Option.noConfusion h
  | cons g rest ih =>
    intro h
    simp only [groupLookup, List.cons_append] at h ⊢
    by_cases hg : g.1 = n
    · rw [if_pos hg] at h ⊢
      exact h
    · rw [if_neg hg] at h ⊢
      exact ih h

/-- Looking up the name of a single appended group succeeds. -/
theorem groupLookup_append_self (n : String) (fs : List ℕ) :
    ∀ gs : Groups, (groupLookup n (gs ++ [(n, fs)])).isSome := by
  intro gs
  induction gs with
  | nil => simp [groupLookup]
  | cons g rest ih =>
    simp only [groupLookup, List.cons_append]
    by_cases hg : g.1 = n
    · rw [if_pos hg]
      rfl
    · rw [if_neg hg]
      exact ih

/-- How `addFaceToGroup` changes a first-match lookup: the targeted name
gains the face at the end of its list, every other name is untouched. -/
theorem groupLookup_addFaceToGroup (n n' : String) (f : ℕ) :
    ∀ gs : Groups, groupLookup n' (addFaceToGroup n f gs)
      = if n' = n then (groupLookup n' gs).map (fun fs => fs ++ [f])
        else groupLookup n' gs := by
  intro gs
  induction gs with
  | nil => by_cases h : n' = n <;> simp [addFaceToGroup, groupLookup, h]
  | cons g rest ih =>
    simp only [addFaceToGroup]
    by_cases hg : g.1 = n
    · rw [if_pos hg]
      by_cases hn' : n' = n
      · subst hn'
        simp [groupLookup, hg]
      · have hh : ¬ g.1 = n' := fun hc => hn' (hc ▸ hg.symm ▸ rfl)
        simp only [groupLookup]
        rw [if_neg hh, if_neg hh, if_neg hn']
    · rw [if_neg hg]
      simp only [groupLookup]
      by_cases hh : g.1 = n'
      · have hn' : ¬ n' = n := fun hc => hg (hh.symm ▸ hc)
        rw [if_pos hh, if_pos hh, if_neg hn']
      · rw [if_neg hh, if_neg hh, ih]

/-- `addFaceToGroup` keeps every successful lookup successful. -/
theorem isSome_groupLookup_addFaceToGroup (n n' : String) (f : ℕ) (gs : Groups)
    (h : (groupLookup n' gs).isSome) :
    (groupLookup n' (addFaceToGroup n f gs)).isSome := by
  rw [groupLookup_addFaceToGroup]
  by_cases hn : n' = n
  · rw [if_pos hn]
    cases hx : groupLookup n' gs with
    | none =>
      rw [hx] at h
      simp at h
    | some v => rfl
  · rw [if_neg hn]
    exact h

/-- Appending an empty group does not change the face total. -/
theorem totalFaces_append_nil (gs : Groups) (m : String) :
    totalFaces (gs ++ [(m, [])]) = totalFaces gs := by
  simp [totalFaces]

/-- Adding a face to a present group grows the face total by one. -/
theorem totalFaces_addFaceToGroup (n : String) (f : ℕ) :
    ∀ gs : Groups, (groupLookup n gs).isSome →
      totalFaces (addFaceToGroup n f gs) = totalFaces gs + 1 := by
  intro gs
  induction gs with
  | nil => intro h; exact absurd h (by simp [groupLookup])
  | cons g rest ih =>
    intro h
    simp only [addFaceToGroup]
    by_cases hg : g.1 = n
    · rw [if_pos hg]
      simp [totalFaces]
      omega
    · rw [if_neg hg]
      have hrest : (groupLookup n rest).isSome := by
        simpa [groupLookup, if_neg hg] using h
      have ih2 := ih hrest
      simp only [totalFaces, List.map_cons, List.sum_cons] at ih2 ⊢
      omega

/-- One load step never loses an existing group's faces: the lookup value
of any present name is only ever extended at the end. -/
theorem loadStep_lookup_mono (s : LoadState) (l : ObjLine) (n : String) (fs : List ℕ)
    (h : groupLookup n s.groups = some fs) :
    ∃ fs', groupLookup n (loadStep s l).groups = some fs' ∧ fs <+: fs' := by
  cases l with
  | group name =>
    simp only [loadStep]
    by_cases hx : (groupLookup name s.groups).isSome
    · rw [if_pos hx]
      exact ⟨fs, h, List.prefix_refl fs⟩
    · rw [if_neg hx]
      exact ⟨fs, groupLookup_append_left n fs s.groups _ h, List.prefix_refl fs⟩
  | face f =>
    simp only [loadStep]
    cases hc : s.current with
    | none =>
      have h2 : groupLookup n (s.groups ++ [(("default"), [])]) = some fs :=
        groupLookup_append_left n fs s.groups _ h
      rw [groupLookup_addFaceToGroup]
      by_cases hn : n = "default"
      · rw [if_pos hn, h2]
        exact ⟨fs ++ [f], rfl, List.prefix_append fs [f]⟩
      · rw [if_neg hn, h2]
        exact ⟨fs, rfl, List.prefix_refl fs⟩
    | some name =>
      rw [groupLookup_addFaceToGroup]
      by_cases hn : n = name
      · rw [if_pos hn, h]
        exact ⟨fs ++ [f], rfl, List.prefix_append fs [f]⟩
      · rw [if_neg hn, h]
        exact ⟨fs, rfl, List.prefix_refl fs⟩
  | usemtl =>
    simp only [loadStep]
    by_cases hx : 0 < s.numGroupFaces
    · rw [if_pos hx]
      exact ⟨fs, groupLookup_append_left n fs s.groups _ h, List.prefix_refl fs⟩
    · rw [if_neg hx]
      exact ⟨fs, h, List.prefix_refl fs⟩
  | other =>
    exact ⟨fs, h, List.prefix_refl fs⟩

/-- Folding the load loop never loses an existing group's faces. -/
theorem load_lookup_mono :
    ∀ (lines : List ObjLine) (s : LoadState) (n : String) (fs : List ℕ),
      groupLookup n s.groups = some fs →
      ∃ fs', groupLookup n (List.foldl loadStep s lines).groups = some fs' ∧ fs <+: fs' := by
  intro lines
  induction lines with
  | nil => exact fun s n fs h => ⟨fs, h, List.prefix_refl fs⟩
  | cons l ls ih =>
    intro s n fs h
    obtain ⟨fs1, h1, hp1⟩ := loadStep_lookup_mono s l n fs h
    obtain ⟨fs2, h2, hp2⟩ := ih (loadStep s l) n fs1 h1
    exact ⟨fs2, h2, hp1.trans hp2⟩

/-- One load step adds exactly the line's faces to the mesh (one for a
face line, none otherwise) and keeps the current group present. -/
theorem loadStep_count (s : LoadState) (l : ObjLine)
    (hinv : ∀ n, s.current = some n → (groupLookup n s.groups).isSome) :
    totalFaces (loadStep s l).groups = totalFaces s.groups + (facesOf [l]).length ∧
    ∀ n, (loadStep s l).current = some n →
      (groupLookup n (loadStep s l).groups).isSome := by
  cases l with
  | group name =>
    simp only [loadStep]
    by_cases hx : (groupLookup name s.groups).isSome
    · rw [if_pos hx]
      refine ⟨by simp [facesOf], ?_⟩
      intro n hn
      have hn2 : name = n := by simpa using hn
      subst hn2
      exact hx
    · rw [if_neg hx]
      constructor
      · show totalFaces (s.groups ++ [(name, [])]) = _
        rw [totalFaces_append_nil]
        simp [facesOf]
      · intro n hn
        have hn2 : name = n := by simpa using hn
        subst hn2
        exact groupLookup_append_self name [] s.groups
  | face f =>
    simp only [loadStep]
    cases hc : s.current with
    | none =>
      constructor
      · show totalFaces (addFaceToGroup ("default") f (s.groups ++ [(("default"), [])])) = _
        rw [totalFaces_addFaceToGroup _ _ _ (groupLookup_append_self _ [] s.groups),
          totalFaces_append_nil]
        simp [facesOf]
      · intro n hn
        have hn2 : ("default") = n := by simpa using hn
        subst hn2
        exact isSome_groupLookup_addFaceToGroup _ _ f _
          (groupLookup_append_self _ [] s.groups)
    | some name =>
      have hsome := hinv name hc
      constructor
      · show totalFaces (addFaceToGroup name f s.groups) = _
        rw [totalFaces_addFaceToGroup name f s.groups hsome]
        simp [facesOf]
      · intro n hn
        have hn2 : name = n := by simpa using hn
        subst hn2
        exact isSome_groupLookup_addFaceToGroup _ _ f _ hsome
  | usemtl =>
    simp only [loadStep]
    by_cases hx : 0 < s.numGroupFaces
    · rw [if_pos hx]
      constructor
      · show totalFaces (s.groups ++ [(_, [])]) = _
        rw [totalFaces_append_nil]
        simp [facesOf]
      · intro n hn
        have hn2 : s.sourceName ++ "." ++ toString s.cloneIdx = n := by simpa using hn
        subst hn2
        exact groupLookup_append_self _ [] s.groups
    · rw [if_neg hx]
      exact ⟨by simp [facesOf], hinv⟩
  | other =>
    refine ⟨?_, hinv⟩
    show totalFaces s.groups = totalFaces s.groups + (facesOf [ObjLine.other]).length
    simp [facesOf]

/-- Folding the load loop adds exactly one stored face per face line:
no parsed face is ever dropped. -/
theorem load_count :
    ∀ (lines : List ObjLine) (s : LoadState),
      (∀ n, s.current = some n → (groupLookup n s.groups).isSome) →
      totalFaces (List.foldl loadStep s lines).groups
        = totalFaces s.groups + (facesOf lines).length := by
  intro lines
  induction lines with
  | nil =>
    intro s _
    simp [facesOf]
  | cons l ls ih =>
    intro s hinv
    obtain ⟨h1, h2⟩ := loadStep_count s l hinv
    rw [List.foldl_cons, ih (loadStep s l) h2, h1]
    cases l <;> simp [facesOf] <;> omega

/-- Processing a group-line-free segment that parses at least one face
leaves the mesh with a `default` group, provided a current group without
preceding faces can only be absent (true from the fresh loop state). -/
theorem gfree_default :
    ∀ (lines : List ObjLine) (s : LoadState),
      (∀ l ∈ lines, isGroupLine l = false) →
      (s.current = none → s.numGroupFaces = 0) →
      (s.current = none ∨ (groupLookup ("default") s.groups).isSome) →
      facesOf lines ≠ [] →
      (groupLookup ("default") (List.foldl loadStep s lines).groups).isSome := by
  intro lines
  induction lines with
  | nil =>
    intro s _ _ _ hne
    exact absurd rfl hne
  | cons l ls ih =>
    intro s hg hinv1 hinv2 hne
    rw [List.foldl_cons]
    cases l with
    | group name =>
      have := hg _ (List.mem_cons_self _ _)
      simp [isGroupLine] at this
    | face f =>
      have hQ : (groupLookup ("default") (loadStep s (.face f)).groups).isSome := by
        simp only [loadStep]
        cases hc : s.current with
        | none =>
          exact isSome_groupLookup_addFaceToGroup _ _ f _
            (groupLookup_append_self _ [] s.groups)
        | some name =>
          rcases hinv2 with hnone | hQ0
          · rw [hc] at hnone
            exact Option.noConfusion hnone
          · exact isSome_groupLookup_addFaceToGroup _ _ f _ hQ0
      obtain ⟨fs, hfs⟩ := Option.isSome_iff_exists.mp hQ
      obtain ⟨fs', hfs', _⟩ := load_lookup_mono ls (loadStep s (.face f)) _ fs hfs
      rw [hfs']
      rfl
    | usemtl =>
      by_cases hx : 0 < s.numGroupFaces
      · have hQ0 : (groupLookup ("default") s.groups).isSome := by
          rcases hinv2 with hnone | hQ0
          · exact absurd (hinv1 hnone) (by omega)
          · exact hQ0
        refine ih (loadStep s .usemtl) (fun l hl => hg l (List.mem_cons_of_mem _ hl))
          ?_ ?_ hne
        · intro hcc
          simp [loadStep, hx]
        · right
          simp only [loadStep, if_pos hx]
          obtain ⟨fs, hfs⟩ := Option.isSome_iff_exists.mp hQ0
          rw [show (groupLookup ("default") (s.groups ++
              [(s.sourceName ++ "." ++ toString s.cloneIdx, [])]))
            = some fs from groupLookup_append_left _ fs s.groups _ hfs]
          rfl
      · have hstep : loadStep s .usemtl = s := by simp [loadStep, hx]
        rw [hstep]
        exact ih s (fun l hl => hg l (List.mem_cons_of_mem _ hl)) hinv1 hinv2 hne
    | other =>
      exact ih s (fun l hl => hg l (List.mem_cons_of_mem _ hl)) hinv1 hinv2 hne

/-- Folding a pure (face/other only) segment from the state holding just
the `default` group appends the segment's faces to that group. -/
theorem foldl_pure_from_default :
    ∀ (ls : List ObjLine) (fs : List ℕ) (sn : String) (ci ngf : ℕ),
      (∀ l ∈ ls, isGroupLine l = false ∧ isUsemtlLine l = false) →
      List.foldl loadStep ⟨[(("default"), fs)], some ("default"), sn, ci, ngf⟩ ls
        = ⟨[(("default"), fs ++ facesOf ls)], some ("default"), sn, ci,
            ngf + (facesOf ls).length⟩ := by
  intro ls
  induction ls with
  | nil =>
    intro fs sn ci ngf _
    simp [facesOf]
  | cons l ls ih =>
    intro fs sn ci ngf hpure
    have hl := hpure l (List.mem_cons_self _ _)
    cases l with
    | group name => simp [isGroupLine] at hl
    | usemtl => simp [isUsemtlLine] at hl
    | face f =>
      rw [List.foldl_cons]
      have hstep : loadStep ⟨[(("default"), fs)], some ("default"), sn, ci, ngf⟩ (.face f)
          = ⟨[(("default"), fs ++ [f])], some ("default"), sn, ci, ngf + 1⟩ := by
        simp [loadStep, addFaceToGroup]
      rw [hstep, ih (fs ++ [f]) sn ci (ngf + 1)
        (fun l hl => hpure l (List.mem_cons_of_mem _ hl))]
      have hfa : facesOf (ObjLine.face f :: ls) = f :: facesOf ls := rfl
      rw [hfa, List.append_assoc]
      simp only [List.singleton_append, List.length_cons]
      rw [show ngf + 1 + (facesOf ls).length
          = ngf + ((facesOf ls).length + 1) from by omega]
    | other =>
      rw [List.foldl_cons]
      exact ih fs sn ci ngf (fun l hl => hpure l (List.mem_cons_of_mem _ hl))

/-- Loading a pure (face/other only) stream that parses at least one face
yields exactly one group, named `default`, holding the stream's faces in
order. -/
theorem load_pure_eq :
    ∀ ls : List ObjLine,
      (∀ l ∈ ls, isGroupLine l = false ∧ isUsemtlLine l = false) →
      facesOf ls ≠ [] →
      List.foldl loadStep initLoadState ls
        = ⟨[(("default"), facesOf ls)], some ("default"), "", 0, (facesOf ls).length⟩ := by
  intro ls
  induction ls with
  | nil =>
    intro _ hne
    exact absurd rfl hne
  | cons l ls ih =>
    intro hpure hne
    have hl := hpure l (List.mem_cons_self _ _)
    cases l with
    | group name => simp [isGroupLine] at hl
    | usemtl => simp [isUsemtlLine] at hl
    | face f =>
      rw [List.foldl_cons]
      have hstep : loadStep initLoadState (.face f)
          = ⟨[(("default"), [f])], some ("default"), "", 0, 1⟩ := by
        simp [loadStep, initLoadState, addFaceToGroup]
      rw [hstep, foldl_pure_from_default ls [f] "" 0 1
        (fun l hl => hpure l (List.mem_cons_of_mem _ hl))]
      have hfa : facesOf (ObjLine.face f :: ls) = f :: facesOf ls := rfl
      rw [hfa]
      simp only [List.singleton_append, List.length_cons]
      rw [show 1 + (facesOf ls).length = (facesOf ls).length + 1 from by omega]
    | other =>
      rw [List.foldl_cons]
      exact ih (fun l hl => hpure l (List.mem_cons_of_mem _ hl)) hne

/-- Claim C9: in `ObjMeshIO::load`, (1) every parsed face is stored in
some group — the mesh's face total equals the number of face lines;
(2) if a face line occurs before any group line, the loaded mesh contains
a group named `default`; (3) every face read while neither a group line
nor a `usemtl` directive has been seen lands, in order, in that `default`
group (a `usemtl` directive after faces redirects later faces to a clone
group, which is why the placement part is scoped to the
group-and-usemtl-free prefix). -/
theorem load_default_group (lines : List ObjLine) :
    (totalFaces (load lines).groups = (facesOf lines).length) ∧
    ((∃ pre f suf, lines = pre ++ ObjLine.face f :: suf ∧
        ∀ l ∈ pre, isGroupLine l = false) →
      (groupLookup ("default") (load lines).groups).isSome) ∧
    (∀ pre suf, lines = pre ++ suf →
      (∀ l ∈ pre, isGroupLine l = false ∧ isUsemtlLine l = false) →
      facesOf pre ≠ [] →
      ∃ fs, groupLookup ("default") (load lines).groups = some fs ∧
        facesOf pre <+: fs) := by
  refine ⟨?_, ?_, ?_⟩
  · have h := load_count lines initLoadState (fun n hn => Option.noConfusion hn)
    simpa [load, initLoadState, totalFaces] using h
  · rintro ⟨pre, f, suf, rfl, hpre⟩
    unfold load
    rw [show pre ++ ObjLine.face f :: suf = (pre ++ [ObjLine.face f]) ++ suf from by simp]
    rw [List.foldl_append]
    have hQ : (groupLookup ("default")
        (List.foldl loadStep initLoadState (pre ++ [ObjLine.face f])).groups).isSome := by
      apply gfree_default (pre ++ [ObjLine.face f]) initLoadState ?_ (fun _ => rfl)
        (Or.inl rfl) ?_
      · intro l hl
        rcases List.mem_append.mp hl with hl1 | hl2
        · exact hpre l hl1
        · rw [List.mem_singleton.mp hl2]
          rfl
      · simp [facesOf, List.filterMap_append]
    obtain ⟨fs, hfs⟩ := Option.isSome_iff_exists.mp hQ
    obtain ⟨fs', hfs', _⟩ := load_lookup_mono suf _ _ fs hfs
    rw [hfs']
    rfl
  · rintro pre suf rfl hpure hne
    unfold load
    rw [List.foldl_append, load_pure_eq pre hpure hne]
    have hfs0 : groupLookup ("default")
        (([(("default"), facesOf pre)]) : Groups) = some (facesOf pre) := by
      simp [groupLookup]
    exact load_lookup_mono suf _ ("default") (facesOf pre) hfs0

/-- Witness for claim C9 on a concrete line stream: two faces before any
group line, then a group line and a third face. -/
theorem load_default_group_witness :
    (totalFaces (load [ObjLine.other, ObjLine.face 1, ObjLine.face 2,
        ObjLine.group ("x"), ObjLine.face 3]).groups
      = (facesOf [ObjLine.other, ObjLine.face 1, ObjLine.face 2,
          ObjLine.group ("x"), ObjLine.face 3]).length) ∧
    (groupLookup ("default") (load [ObjLine.other, ObjLine.face 1, ObjLine.face 2,
        ObjLine.group ("x"), ObjLine.face 3]).groups).isSome ∧
    ∃ fs, groupLookup ("default") (load [ObjLine.other, ObjLine.face 1, ObjLine.face 2,
        ObjLine.group ("x"), ObjLine.face 3]).groups = some fs ∧
      facesOf [ObjLine.other, ObjLine.face 1, ObjLine.face 2] <+: fs := by
  have h := load_default_group [ObjLine.other, ObjLine.face 1, ObjLine.face 2,
    ObjLine.group ("x"), ObjLine.face 3]
  refine ⟨h.1, h.2.1 ⟨[ObjLine.other], 1,
    [ObjLine.face 2, ObjLine.group ("x"), ObjLine.face 3], rfl, ?_⟩,
    h.2.2 [ObjLine.other, ObjLine.face 1, ObjLine.face 2]
      [ObjLine.group ("x"), ObjLine.face 3] rfl ?_ ?_⟩
  · intro l hl
    rw [List.mem_singleton.mp hl]
    rfl
  · intro l hl
    fin_cases hl <;> exact ⟨rfl, rfl⟩
  · decide

end ObjMeshIO

namespace PhysIKA

/-- Claim C10: `FastMultiphaseSPH::advance(dt)` ignores its `dt` argument
entirely: for every `dt` it performs exactly one internal solver step
(`m_msph->step()`), whose behavior cannot depend on the passed-in
timestep, so two calls with different `dt` values produce identical state
transitions. -/
theorem FastMultiphaseSPH.advance_ignores_dt {S R : Type} (step : S → S)
    (dt₁ dt₂ : R) (s : S) :
    FastMultiphaseSPH.advance step dt₁ s = step s ∧
    FastMultiphaseSPH.advance step dt₁ s = FastMultiphaseSPH.advance step dt₂ s :=
  ⟨rfl, rfl⟩

end PhysIKA
